import Mathlib

/-!
Verification of the document indexing and retrieval core of
`src/app.py` (Veera Enterprise AI demo).

The Document Agent keeps two parallel session-scoped stores:
a FAISS `IndexFlatL2(384)` of vectors (`st.session_state.faiss_index`)
and a Python list of document texts (`st.session_state.documents`).
The ingestion block (app.py lines 93-109) extracts per-page PDF text,
concatenates it, and on non-whitespace text appends the document and
then its embedding; the query block (lines 113-124) guards on an empty
document list, embeds the query, runs a k=1 FAISS search and displays
the first 500 characters of the retrieved document.

Vector components (float32 in the code) are modelled as rationals.
The embedding model and FAISS are external collaborators whose source
is not part of this repository; the FAISS flat-L2 search is modelled
from the specification (see `faissSearch`), and the embedding function
is a parameter everywhere.
-/

namespace VeeraTech

/-- A vector: fixed-length sequence of numeric components
(float32 values in the code, modelled as rationals). -/
abbrev Vec := List ℚ

/-- The Document Agent's session state: the parallel stores
`st.session_state.faiss_index` (contents of the FAISS index, in
insertion order) and `st.session_state.documents` (app.py lines 41-45). -/
structure AgentState where
  vectors : List Vec
  documents : List String
  deriving DecidableEq, Repr

/-- The embedding dimension, `dimension = 384` (app.py line 39). -/
def dimension : Nat := 384

/-- Python `str.isspace` truthiness for the ASCII whitespace characters
relevant to `text.strip()` (app.py line 101). -/
def pyIsSpace (c : Char) : Bool :=
  c = ' ' || c = '\t' || c = '\n' || c = '\r' || c = '\x0b' || c = '\x0c'

/-- Python `text.strip()` (app.py line 101): drop leading and trailing
whitespace; returned as a character list (only emptiness is consulted). -/
def pyStrip (s : String) : List Char :=
  ((s.data.dropWhile pyIsSpace).reverse.dropWhile pyIsSpace).reverse

/-- The page loop of app.py lines 95-99: start from `""` and, for each
page, append `page.extract_text()` when it is truthy (not `None` and not
empty). `none` models a page whose extraction returns `None`. -/
def buildText (pages : List (Option String)) : String :=
  pages.foldl (fun text content =>
    match content with
    | some c => if c ≠ "" then text ++ c else text
    | none => text) ""

/-- The failure modes of the ingestion block (spec section 7). -/
inductive IngestError
  | ExtractionFailed
  | EmbeddingFailure
  | DimensionMismatch
  deriving DecidableEq, Repr

/-- The Document Agent ingestion block (app.py lines 93-109).

`embed` is the external embedding collaborator
(`embed_model.encode`); `none` models the collaborator raising.
The block follows the source order exactly: when the stripped text is
non-empty the document is appended FIRST (line 102), then the text is
embedded (line 103), then the vector is added to the FAISS index
(lines 104-106).  The dimension check on `faiss_index.add` is the
FAISS `IndexFlatL2` precondition, modelled from the spec
(section 4.1: fails with `DimensionMismatch` when the vector length
differs from the configured dimension).  Mutations of
`st.session_state` persist even when an exception escapes the script
run, so the post-state is returned together with the error, if any. -/
def ingest (embed : String → Option Vec) (s : AgentState)
    (pages : List (Option String)) : AgentState × Option IngestError :=
  let text := buildText pages
  if pyStrip text ≠ [] then
    let s1 : AgentState := { s with documents := s.documents ++ [text] }
    match embed text with
    | none => (s1, some .EmbeddingFailure)
    | some v =>
      if v.length = dimension then
        ({ s1 with vectors := s1.vectors ++ [v] }, none)
      else
        (s1, some .DimensionMismatch)
  else
    (s, some .ExtractionFailed)

/-- Squared L2 distance between two vectors (the metric of
`faiss.IndexFlatL2`). -/
def sqDist (u v : Vec) : ℚ :=
  (List.zipWith (fun a b => (a - b) * (a - b)) u v).sum

/-- All stored entries scored against a query vector: the pair
(insertion index, squared L2 distance to the query). -/
def scored (index : List Vec) (q : Vec) : List (Nat × ℚ) :=
  index.enum.map (fun p => (p.1, sqDist q p.2))

/-- Comparison of scored entries: by ascending distance, ties broken by
ascending insertion index (the stable tie-break of spec section 4.1). -/
def entryLe (a b : Nat × ℚ) : Bool :=
  decide (a.2 < b.2 ∨ (a.2 = b.2 ∧ a.1 ≤ b.1))

/-- Modelled from the spec: `faiss.IndexFlatL2.search` (FAISS is an
external library; only its caller is under `src/`).  Spec section 4.1:
exact brute-force nearest neighbour by squared L2 distance; results
ordered ascending by distance, ties stable by insertion order
(earliest-inserted first); `k` larger than the number of stored entries
returns all entries.  Returns (insertion index, squared distance)
pairs. -/
def faissSearch (index : List Vec) (q : Vec) (k : Nat) : List (Nat × ℚ) :=
  ((scored index q).mergeSort entryLe).take k

/-- The failure modes of the query block (spec sections 4.3 and 7).
`LookupFailure` models a Python exception escaping the block when the
vector store is empty or shorter than the document store (FAISS returns
the sentinel index -1 on an empty index); it is unreachable whenever
the two parallel stores are aligned. -/
inductive QueryError
  | NoDocumentsIndexed
  | LookupFailure
  deriving DecidableEq, Repr

/-- The Document Agent query block (app.py lines 113-124): if no
document is indexed, warn `"No documents indexed."`; otherwise embed
the query, search with k = 1, fetch `documents[I[0][0]]` and display
its first 500 characters (`context[:500]`).  The block never writes
`st.session_state`, so the post-state is the input state.  On success
the payload is (stored document text, displayed snippet). -/
def runQueryB (embed : String → Vec) (s : AgentState) (q : String) :
    AgentState × Except QueryError (String × String) :=
  if s.documents.length = 0 then
    (s, .error .NoDocumentsIndexed)
  else
    match faissSearch s.vectors (embed q) 1 with
    | [] => (s, .error .LookupFailure)
    | (i, _) :: _ =>
      match s.documents.get? i with
      | some doc => (s, .ok (doc, doc.take 500))
      | none => (s, .error .LookupFailure)

/-- A successful insert (the success path of app.py lines 102-106, and
the `insert` operation of spec section 4.1): append the pair to both
parallel stores. -/
def insertOk (s : AgentState) (doc : String) (v : Vec) : AgentState :=
  { vectors := s.vectors ++ [v], documents := s.documents ++ [doc] }

/-- Run a sequence of successful inserts from a starting state. -/
def insertAll (s : AgentState) (items : List (String × Vec)) : AgentState :=
  items.foldl (fun t it => insertOk t it.1 it.2) s

/-- The empty session state (app.py lines 41-45). -/
def emptyState : AgentState := ⟨[], []⟩

/-- C1: the claim fails on the code.  When the embedding collaborator
raises partway through ingestion of a one-page PDF with text
`"hello"` from the empty session state, the document has already been
appended (app.py line 102 precedes line 103), so afterwards the
document store has length 1 while the vector store has length 0: a
partial insert is observable and `len(vectors) == len(documents)` is
violated. -/
theorem C1_partial_insert_eval :
    ingest (fun _ => none) emptyState [some "hello"]
      = (⟨[], ["hello"]⟩, some IngestError.EmbeddingFailure) ∧
    ¬ ((ingest (fun _ => none) emptyState [some "hello"]).1.vectors.length
        = (ingest (fun _ => none) emptyState [some "hello"]).1.documents.length) := by
  constructor <;> decide

/-- C8: the claim fails on the code.  When the vectorizer hands the
FAISS index a length-2 vector (dimension is 384), the add fails with a
dimension mismatch, but the document was already appended at app.py
line 102, so the document store IS modified by the failing insert. -/
theorem C8_dimension_mismatch_eval :
    ingest (fun _ => some [0, 0]) emptyState [some "hello"]
      = (⟨[], ["hello"]⟩, some IngestError.DimensionMismatch) ∧
    (ingest (fun _ => some [0, 0]) emptyState [some "hello"]).1 ≠ emptyState := by
  constructor <;> decide

/-- C2: ingesting a file whose extracted, concatenated text is empty or
whitespace-only fails with `ExtractionFailed` and leaves the session
state (both parallel stores) exactly unchanged. -/
theorem C2_whitespace_extraction_failed (embed : String → Option Vec)
    (s : AgentState) (pages : List (Option String))
    (h : pyStrip (buildText pages) = []) :
    ingest embed s pages = (s, some IngestError.ExtractionFailed) := by
  unfold ingest
  simp [h]

/-- Witness for C2: a PDF whose pages yield `" \n "`, `None` and `""`
strips to nothing, and ingestion fails with `ExtractionFailed` leaving
the empty state unchanged. -/
theorem C2_whitespace_extraction_failed_witness :
    pyStrip (buildText [some " \n ", none, some ""]) = [] ∧
    ingest (fun _ => none) emptyState [some " \n ", none, some ""]
      = (emptyState, some IngestError.ExtractionFailed) :=
  ⟨by decide, C2_whitespace_extraction_failed _ _ _ (by decide)⟩

/-- C3: a query issued while the document store is empty fails with
`NoDocumentsIndexed` (app.py lines 114-115) and never returns a
document result; the state is untouched. -/
theorem C3_empty_index_query (embed : String → Vec) (s : AgentState)
    (q : String) (h : s.documents = []) :
    runQueryB embed s q = (s, .error QueryError.NoDocumentsIndexed) := by
  unfold runQueryB
  simp [h]

/-- Witness for C3: querying the fresh empty session state fails with
`NoDocumentsIndexed`. -/
theorem C3_empty_index_query_witness :
    emptyState.documents = [] ∧
    runQueryB (fun _ => []) emptyState "anything"
      = (emptyState, .error QueryError.NoDocumentsIndexed) :=
  ⟨rfl, C3_empty_index_query _ _ _ rfl⟩

/-- The document/distance pairing performed by the query block:
each search hit (i, d) is paired with `documents[i]`
(app.py line 122), generalised to arbitrary k. -/
def searchDocs (s : AgentState) (q : Vec) (k : Nat) : List (String × ℚ) :=
  (faissSearch s.vectors q k).map (fun p => (s.documents.getD p.1 "", p.2))

theorem sqDist_nonneg (u v : Vec) : 0 ≤ sqDist u v := by
  induction u generalizing v with
  | nil => simp [sqDist]
  | cons a u ih =>
    cases v with
    | nil => simp [sqDist]
    | cons b v =>
      have h1 := ih v
      have h2 : 0 ≤ (a - b) * (a - b) := mul_self_nonneg _
      simp only [sqDist, List.zipWith_cons_cons, List.sum_cons] at h1 ⊢
      linarith

theorem sqDist_self (v : Vec) : sqDist v v = 0 := by
  induction v with
  | nil => simp [sqDist]
  | cons a u ih =>
    simp only [sqDist, List.zipWith_cons_cons, List.sum_cons] at ih ⊢
    simp [ih]

theorem sqDist_eq_zero_iff (u v : Vec) (h : u.length = v.length) :
    sqDist u v = 0 ↔ u = v := by
  induction u generalizing v with
  | nil =>
    cases v with
    | nil => simp [sqDist]
    | cons b v => simp at h
  | cons a u ih =>
    cases v with
    | nil => simp at h
    | cons b v =>
      simp only [List.length_cons, Nat.add_right_cancel_iff] at h
      have hz : 0 ≤ sqDist u v := sqDist_nonneg u v
      have hsq : 0 ≤ (a - b) * (a - b) := mul_self_nonneg _
      simp only [sqDist, List.zipWith_cons_cons, List.sum_cons] at hz hsq ⊢
      constructor
      · intro h0
        have h1 : (a - b) * (a - b) = 0 := by linarith
        have h2 : (List.zipWith (fun a b => (a - b) * (a - b)) u v).sum = 0 := by
          linarith
        have hab : a = b := by
          have hd : a - b = 0 := mul_self_eq_zero.mp h1
          linarith
        have huv : u = v := (ih v h).mp h2
        simp [hab, huv]
      · intro h0
        obtain ⟨rfl, rfl⟩ := List.cons_eq_cons.mp h0
        have hs := sqDist_self u
        simp only [sqDist] at hs
        rw [hs]
        ring

theorem entryLe_trans (a b c : Nat × ℚ) :
    entryLe a b → entryLe b c → entryLe a c := by
  simp only [entryLe, decide_eq_true_eq]
  rintro (h1 | ⟨h1, h1'⟩) (h2 | ⟨h2, h2'⟩)
  · exact Or.inl (lt_trans h1 h2)
  · exact Or.inl (h2 ▸ h1)
  · exact Or.inl (h1 ▸ h2)
  · exact Or.inr ⟨h1.trans h2, le_trans h1' h2'⟩

theorem entryLe_total (a b : Nat × ℚ) : entryLe a b || entryLe b a := by
  simp only [entryLe, Bool.or_eq_true, decide_eq_true_eq]
  rcases lt_trichotomy a.2 b.2 with h | h | h
  · exact Or.inl (Or.inl h)
  · rcases Nat.le_total a.1 b.1 with h' | h'
    · exact Or.inl (Or.inr ⟨h, h'⟩)
    · exact Or.inr (Or.inr ⟨h.symm, h'⟩)
  · exact Or.inr (Or.inl h)

theorem entryLe_snd_le {a b : Nat × ℚ} (h : entryLe a b = true) : a.2 ≤ b.2 := by
  simp only [entryLe, decide_eq_true_eq] at h
  rcases h with h | ⟨h, _⟩
  · exact le_of_lt h
  · exact le_of_eq h

theorem mem_scored {index : List Vec} {q : Vec} {p : Nat × ℚ} :
    p ∈ scored index q ↔ ∃ v, index[p.1]? = some v ∧ p.2 = sqDist q v := by
  unfold scored
  rw [List.mem_map]
  constructor
  · rintro ⟨⟨i, v⟩, hmem, rfl⟩
    exact ⟨v, List.mk_mem_enum_iff_getElem?.mp hmem, rfl⟩
  · rintro ⟨v, hget, hp⟩
    refine ⟨(p.1, v), List.mk_mem_enum_iff_getElem?.mpr hget, ?_⟩
    rw [Prod.ext_iff]
    exact ⟨rfl, hp.symm⟩

theorem scored_map_fst (index : List Vec) (q : Vec) :
    (scored index q).map Prod.fst = List.range index.length := by
  unfold scored
  rw [List.map_map]
  have hc : (Prod.fst ∘ fun p : Nat × Vec => (p.1, sqDist q p.2)) = Prod.fst := rfl
  rw [hc, List.enum_map_fst]

/-- The search output is sorted for `entryLe`: distances ascending,
ties by ascending insertion index. -/
theorem faissSearch_pairwise (index : List Vec) (q : Vec) (k : Nat) :
    (faissSearch index q k).Pairwise (fun a b => entryLe a b = true) := by
  unfold faissSearch
  exact List.Pairwise.sublist (List.take_sublist _ _)
    (List.sorted_mergeSort entryLe_trans entryLe_total (scored index q))

/-- Every search hit is a stored entry with its true squared distance. -/
theorem faissSearch_mem {index : List Vec} {q : Vec} {k : Nat} {p : Nat × ℚ}
    (h : p ∈ faissSearch index q k) :
    ∃ v, index[p.1]? = some v ∧ p.2 = sqDist q v := by
  unfold faissSearch at h
  have h1 : p ∈ (scored index q).mergeSort entryLe := List.mem_of_mem_take h
  rw [List.mem_mergeSort] at h1
  exact mem_scored.mp h1

/-- The insertion indices of the search hits are pairwise distinct. -/
theorem faissSearch_nodup_fst (index : List Vec) (q : Vec) (k : Nat) :
    ((faissSearch index q k).map Prod.fst).Nodup := by
  have hperm : List.Perm (((scored index q).mergeSort entryLe).map Prod.fst)
      ((scored index q).map Prod.fst) :=
    (List.mergeSort_perm (scored index q) entryLe).map Prod.fst
  have hnd : (((scored index q).mergeSort entryLe).map Prod.fst).Nodup := by
    rw [hperm.nodup_iff, scored_map_fst]
    exact List.nodup_range _
  have hsub : ((faissSearch index q k).map Prod.fst).Sublist
      (((scored index q).mergeSort entryLe).map Prod.fst) := by
    unfold faissSearch
    exact (List.take_sublist _ _).map Prod.fst
  exact hnd.sublist hsub

/-- Running the successful inserts from a starting state appends the
vectors and documents in order. -/
theorem insertAll_eq (s : AgentState) (items : List (String × Vec)) :
    insertAll s items
      = ⟨s.vectors ++ items.map Prod.snd, s.documents ++ items.map Prod.fst⟩ := by
  induction items generalizing s with
  | nil => simp [insertAll]
  | cons it items ih =>
    show insertAll (insertOk s it.1 it.2) items = _
    rw [ih]
    simp [insertOk]

/-- C4: after any sequence of successful inserts starting from the
empty session state, every document returned by a search is one of the
inserted documents, every returned distance is non-negative, and the
returned distances are non-decreasing from first to last. -/
theorem C4_search_sound (items : List (String × Vec)) (q : Vec) (k : Nat) :
    (∀ r ∈ searchDocs (insertAll emptyState items) q k,
        r.1 ∈ items.map Prod.fst ∧ 0 ≤ r.2) ∧
    ((searchDocs (insertAll emptyState items) q k).map Prod.snd).Chain'
      (fun a b => a ≤ b) := by
  have hs : insertAll emptyState items
      = ⟨items.map Prod.snd, items.map Prod.fst⟩ := by
    rw [insertAll_eq]; rfl
  constructor
  · intro r hr
    rw [hs] at hr
    dsimp only [searchDocs] at hr
    rw [List.mem_map] at hr
    obtain ⟨p, hp, rfl⟩ := hr
    obtain ⟨v, hget, hd⟩ := faissSearch_mem hp
    obtain ⟨hlt, -⟩ := List.getElem?_eq_some_iff.mp hget
    rw [List.length_map] at hlt
    have hlt2 : p.1 < (items.map Prod.fst).length := by
      rw [List.length_map]; exact hlt
    have hdoc : (items.map Prod.fst)[p.1]? = some (items.map Prod.fst)[p.1] :=
      List.getElem?_eq_some_iff.mpr ⟨hlt2, rfl⟩
    constructor
    · show (items.map Prod.fst).getD p.1 "" ∈ items.map Prod.fst
      rw [List.getD_eq_getElem?_getD, hdoc]
      exact List.getElem?_mem hdoc
    · show 0 ≤ p.2
      rw [hd]
      exact sqDist_nonneg q v
  · rw [hs]
    dsimp only [searchDocs]
    rw [List.map_map]
    have hc : (Prod.snd ∘ fun p : Nat × ℚ =>
        ((items.map Prod.fst).getD p.1 "", p.2)) = Prod.snd := rfl
    rw [hc]
    have hpw : (faissSearch (items.map Prod.snd) q k).Pairwise
        (fun a b : Nat × ℚ => a.2 ≤ b.2) :=
      (faissSearch_pairwise (items.map Prod.snd) q k).imp entryLe_snd_le
    exact (List.pairwise_map.mpr hpw).chain'

/-- Witness for C4: inserting ("a", [1]) then ("b", [2]) and searching
with q = [2], k = 2: only inserted documents are returned, with
non-negative, non-decreasing distances. -/
theorem C4_search_sound_witness :
    (∀ r ∈ searchDocs (insertAll emptyState [("a", [1]), ("b", [2])]) [2] 2,
        r.1 ∈ [("a", [(1:ℚ)]), ("b", [2])].map Prod.fst ∧ 0 ≤ r.2) ∧
    ((searchDocs (insertAll emptyState [("a", [1]), ("b", [2])]) [2] 2).map
      Prod.snd).Chain' (fun a b => a ≤ b) :=
  C4_search_sound [("a", [1]), ("b", [2])] [2] 2

/-- C5: searching a non-empty index of n entries with k > n returns
exactly the n stored entries (a permutation of all scored entries — no
placeholders), sorted by ascending distance, with no failure. -/
theorem C5_k_exceeds_size (index : List Vec) (q : Vec) (k : Nat)
    (hne : index ≠ []) (hk : index.length < k) :
    List.Perm (faissSearch index q k) (scored index q) ∧
    (faissSearch index q k).length = index.length ∧
    ((faissSearch index q k).map Prod.snd).Chain' (fun a b => a ≤ b) := by
  have hslen : (scored index q).length = index.length := by
    unfold scored
    simp
  have htake : faissSearch index q k = (scored index q).mergeSort entryLe := by
    unfold faissSearch
    apply List.take_of_length_le
    rw [List.length_mergeSort, hslen]
    exact le_of_lt hk
  refine ⟨?_, ?_, ?_⟩
  · rw [htake]
    exact List.mergeSort_perm _ _
  · rw [htake, List.length_mergeSort, hslen]
  · have hpw : (faissSearch index q k).Pairwise
        (fun a b : Nat × ℚ => a.2 ≤ b.2) :=
      (faissSearch_pairwise index q k).imp entryLe_snd_le
    exact (List.pairwise_map.mpr hpw).chain'

/-- Witness for C5: with two stored vectors and k = 3, the search
returns both entries, sorted ascending. -/
theorem C5_k_exceeds_size_witness :
    ([[(3:ℚ)], [1]] : List Vec) ≠ [] ∧
    ([[(3:ℚ)], [1]] : List Vec).length < 3 ∧
    List.Perm (faissSearch [[(3:ℚ)], [1]] [1] 3) (scored [[(3:ℚ)], [1]] [1]) ∧
    (faissSearch [[(3:ℚ)], [1]] [1] 3).length
      = ([[(3:ℚ)], [1]] : List Vec).length ∧
    ((faissSearch [[(3:ℚ)], [1]] [1] 3).map Prod.snd).Chain' (fun a b => a ≤ b) :=
  ⟨by decide, by decide, C5_k_exceeds_size [[3], [1]] [1] 3 (by decide) (by decide)⟩

/-- C6: whenever two search hits at equal distance from the query occur
in the result list (the first before the second), the earlier hit
carries the smaller insertion index: equally distant entries are
ordered by insertion order, earliest-inserted first. -/
theorem C6_stable_ties (index : List Vec) (q : Vec) (k : Nat)
    (p1 p2 : Nat × ℚ)
    (hsub : [p1, p2].Sublist (faissSearch index q k))
    (heq : p1.2 = p2.2) : p1.1 < p2.1 := by
  have hpw := faissSearch_pairwise index q k
  have hle := List.pairwise_iff_forall_sublist.mp hpw hsub
  simp only [entryLe, decide_eq_true_eq] at hle
  rcases hle with hlt | ⟨-, hidx⟩
  · exact absurd (heq ▸ hlt) (lt_irrefl _)
  · have hne : p1.1 ≠ p2.1 := by
      have hnd := faissSearch_nodup_fst index q k
      have hsubf : [p1.1, p2.1].Sublist ((faissSearch index q k).map Prod.fst) := by
        have hm := hsub.map Prod.fst
        simpa using hm
      have hnd2 := hnd.sublist hsubf
      simp only [List.nodup_cons, List.mem_singleton] at hnd2
      exact hnd2.1
    omega

/-- Sorting the two-way tie at distance 0 keeps insertion order. -/
theorem mergeSortTwoZero :
    ([((0:Nat), (0:ℚ)), (1, 0)]).mergeSort entryLe = [(0, 0), (1, 0)] := by
  have he : entryLe ((0:Nat), (0:ℚ)) (1, 0) = true := by
    simp [entryLe]
  have hsorted : ([((0:Nat), (0:ℚ)), (1, 0)]).Pairwise
      (fun a b => entryLe a b = true) := by
    refine List.Pairwise.cons ?_ (List.pairwise_singleton _ _)
    intro b hb
    rw [List.mem_singleton] at hb
    subst hb
    exact he
  exact List.mergeSort_of_sorted hsorted

/-- Concrete evaluation of the search on two identical stored vectors:
both tie at distance 0 and the result preserves insertion order. -/
theorem faissSearch_tie_eval :
    faissSearch [[(0:ℚ)], [0]] [0] 2 = [(0, 0), (1, 0)] := by
  have hd : sqDist [(0:ℚ)] [0] = 0 := by
    simp [sqDist]
  have hscored : scored [[(0:ℚ)], [0]] [0] = [(0, 0), (1, 0)] := by
    have hsym : scored [[(0:ℚ)], [0]] [0]
        = [(0, sqDist [0] [0]), (1, sqDist [0] [0])] := rfl
    rw [hsym, hd]
  unfold faissSearch
  rw [hscored, mergeSortTwoZero]
  rfl

/-- Witness for C6: two identical stored vectors tie at distance 0 from
the query; the result lists insertion index 0 before insertion index 1. -/
theorem C6_stable_ties_witness :
    [((0:Nat), (0:ℚ)), (1, 0)].Sublist (faissSearch [[(0:ℚ)], [0]] [0] 2) ∧
    (0:Nat) < 1 :=
  ⟨by rw [faissSearch_tie_eval], C6_stable_ties [[0], [0]] [0] 2 (0, 0) (1, 0)
    (by rw [faissSearch_tie_eval]) rfl⟩

theorem stringFoldlAppend (xs : List String) :
    ∀ acc : String, xs.foldl (fun a b => a ++ b) acc
      = acc ++ xs.foldl (fun a b => a ++ b) "" := by
  induction xs with
  | nil =>
    intro acc
    simp
  | cons x xs ih =>
    intro acc
    simp only [List.foldl_cons, String.empty_append]
    rw [ih (acc ++ x), ih x, String.append_assoc]

theorem stringJoinCons (x : String) (xs : List String) :
    String.join (x :: xs) = x ++ String.join xs := by
  show (x :: xs).foldl (fun a b => a ++ b) "" = x ++ xs.foldl (fun a b => a ++ b) ""
  rw [List.foldl_cons, String.empty_append, stringFoldlAppend xs x]

/-- The page loop computes the concatenation, in page order, of the
per-page texts, a page yielding `None` or `""` contributing nothing. -/
theorem buildText_go (pages : List (Option String)) :
    ∀ acc : String,
      pages.foldl (fun text content =>
        match content with
        | some c => if c ≠ "" then text ++ c else text
        | none => text) acc
      = acc ++ String.join (pages.map (fun o => o.getD "")) := by
  induction pages with
  | nil =>
    intro acc
    simp [String.join]
  | cons o ps ih =>
    intro acc
    cases o with
    | none =>
      simp only [List.foldl_cons, List.map_cons, Option.getD_none]
      rw [ih acc, stringJoinCons, String.empty_append]
    | some c =>
      simp only [List.foldl_cons, List.map_cons, Option.getD_some]
      by_cases hc : c = ""
      · subst hc
        rw [if_neg (by simp)]
        rw [ih acc, stringJoinCons, String.empty_append]
      · rw [if_pos hc]
        rw [ih (acc ++ c), stringJoinCons, String.append_assoc]

theorem buildText_eq_join (pages : List (Option String)) :
    buildText pages = String.join (pages.map (fun o => o.getD "")) := by
  unfold buildText
  rw [buildText_go pages "", String.empty_append]

/-- C9: whenever ingestion stores a document (the stripped text is
non-empty), the text appended to the document store is the
concatenation, in page order, of the per-page extracted texts — pages
whose extraction yields no text (`None` or `""`) contribute nothing.
This holds on every ingestion path (success, embedding failure,
dimension mismatch). -/
theorem C9_stored_text_is_page_concat (embed : String → Option Vec)
    (s : AgentState) (pages : List (Option String))
    (h : pyStrip (buildText pages) ≠ []) :
    (ingest embed s pages).1.documents
      = s.documents ++ [String.join (pages.map (fun o => o.getD ""))] := by
  rw [← buildText_eq_join]
  unfold ingest
  rw [if_pos h]
  cases embed (buildText pages) with
  | none => rfl
  | some v =>
    dsimp only
    by_cases hv : v.length = dimension
    · rw [if_pos hv]
    · rw [if_neg hv]

/-- Witness for C9: a four-page file with texts "ab", `None`, "" and
"c" stores the single document "abc". -/
theorem C9_stored_text_is_page_concat_witness :
    pyStrip (buildText [some "ab", none, some "", some "c"]) ≠ [] ∧
    (ingest (fun _ => none) emptyState [some "ab", none, some "", some "c"]).1.documents
      = emptyState.documents
        ++ [String.join ([some "ab", none, some "", some "c"].map (fun o => o.getD ""))] :=
  ⟨by decide, C9_stored_text_is_page_concat (fun _ => none) emptyState
    [some "ab", none, some "", some "c"] (by decide)⟩

/-- C10: querying a non-empty index with aligned parallel stores is
read-only — the session state comes back unchanged — and the result
pairs the untruncated stored document (still a member of the unchanged
document store) with a display snippet that is exactly its first 500
characters. -/
theorem C10_query_readonly_truncated (embed : String → Vec) (s : AgentState)
    (q : String) (hlen : s.vectors.length = s.documents.length)
    (hne : s.documents ≠ []) :
    ∃ doc ∈ s.documents,
      runQueryB embed s q = (s, Except.ok (doc, doc.take 500)) := by
  have hlpos : 0 < s.documents.length := List.length_pos.mpr hne
  have hsne : faissSearch s.vectors (embed q) 1 ≠ [] := by
    intro hE
    have hlE := congrArg List.length hE
    simp only [faissSearch, List.length_take, List.length_mergeSort,
      List.length_nil] at hlE
    have hslen : (scored s.vectors (embed q)).length = s.vectors.length := by
      simp [scored]
    rw [hslen, hlen] at hlE
    omega
  obtain ⟨p, rest, hcons⟩ := List.exists_cons_of_ne_nil hsne
  have hmem : p ∈ faissSearch s.vectors (embed q) 1 := by
    rw [hcons]
    exact List.mem_cons_self _ _
  obtain ⟨v, hget, -⟩ := faissSearch_mem hmem
  have hi : p.1 < s.documents.length := by
    have hi0 := (List.getElem?_eq_some_iff.mp hget).1
    omega
  obtain ⟨doc, hdocE⟩ : ∃ doc, s.documents[p.1]? = some doc :=
    ⟨_, List.getElem?_eq_some_iff.mpr ⟨hi, rfl⟩⟩
  have hdocG : s.documents.get? p.1 = some doc := by
    rw [List.get?_eq_getElem?]
    exact hdocE
  refine ⟨doc, List.getElem?_mem hdocE, ?_⟩
  unfold runQueryB
  rw [if_neg (by omega), hcons]
  obtain ⟨i, d⟩ := p
  dsimp only
  rw [hdocG]

/-- Witness for C10: querying the one-document state returns that
document, shown truncated to its first 500 characters, and the state
unchanged. -/
theorem C10_query_readonly_truncated_witness :
    (⟨[[1]], ["hello"]⟩ : AgentState).vectors.length
      = (⟨[[1]], ["hello"]⟩ : AgentState).documents.length ∧
    (⟨[[1]], ["hello"]⟩ : AgentState).documents ≠ [] ∧
    ∃ doc ∈ (⟨[[1]], ["hello"]⟩ : AgentState).documents,
      runQueryB (fun _ => [1]) ⟨[[1]], ["hello"]⟩ "hi"
        = (⟨[[1]], ["hello"]⟩, Except.ok (doc, doc.take 500)) :=
  ⟨by decide, by decide,
    C10_query_readonly_truncated (fun _ => [1]) ⟨[[1]], ["hello"]⟩ "hi"
      (by decide) (by decide)⟩

/-- A degenerate but deterministic vectorizer: every text maps to the
zero vector of the configured dimension. -/
def constEmbed : String → Vec := fun _ => List.replicate dimension 0

/-- C7: the claim fails on the code under determinism alone.  With the
deterministic vectorizer `constEmbed`, insert "a" then "b" and query
"b": both stored vectors tie at distance 0, the stable tie-break picks
the earliest insertion, and the top-1 result is "a" — not the queried
document "b", and its distance is not strictly smaller than the
distance to the differing document. -/
theorem C7_roundtrip_counterexample :
    runQueryB constEmbed
      (insertAll emptyState [("a", constEmbed "a"), ("b", constEmbed "b")]) "b"
      = (insertAll emptyState [("a", constEmbed "a"), ("b", constEmbed "b")],
         Except.ok ("a", ("a" : String).take 500)) ∧
    ("a" : String) ≠ "b" := by
  constructor
  · have hs : insertAll emptyState [("a", constEmbed "a"), ("b", constEmbed "b")]
        = ⟨[constEmbed "a", constEmbed "b"], ["a", "b"]⟩ := by
      rw [insertAll_eq]
      rfl
    rw [hs]
    have hscored : scored [constEmbed "a", constEmbed "b"] (constEmbed "b")
        = [(0, 0), (1, 0)] := by
      have hsym : scored [constEmbed "a", constEmbed "b"] (constEmbed "b")
          = [(0, sqDist (constEmbed "b") (constEmbed "a")),
             (1, sqDist (constEmbed "b") (constEmbed "b"))] := rfl
      rw [hsym, sqDist_self]
      have hab : constEmbed "a" = constEmbed "b" := rfl
      rw [hab, sqDist_self]
    have hsearch : faissSearch [constEmbed "a", constEmbed "b"] (constEmbed "b") 1
        = [(0, 0)] := by
      unfold faissSearch
      rw [hscored, mergeSortTwoZero]
      rfl
    unfold runQueryB
    rw [hsearch]
    rfl
  · decide

/-- C7 (amended): when additionally every stored embedding has the
query embedding's dimension and documents whose content differs from
the queried text receive a different embedding, querying a previously
ingested text returns that text as the top-1 result (displayed as its
500-character prefix), its distance 0 being strictly smaller than the
distance to every indexed document with different content. -/
theorem C7_roundtrip_amended (embed : String → Vec) (texts : List String)
    (t : String) (ht : t ∈ texts)
    (hlen : ∀ u ∈ texts, (embed u).length = (embed t).length)
    (hinj : ∀ u ∈ texts, u ≠ t → embed u ≠ embed t) :
    runQueryB embed (insertAll emptyState (texts.map (fun u => (u, embed u)))) t
      = (insertAll emptyState (texts.map (fun u => (u, embed u))),
         Except.ok (t, t.take 500)) ∧
    (∀ u ∈ texts, u ≠ t → 0 < sqDist (embed t) (embed u)) := by
  have hs : insertAll emptyState (texts.map (fun u => (u, embed u)))
      = ⟨texts.map embed, texts⟩ := by
    rw [insertAll_eq]
    simp only [List.map_map]
    have h1 : (Prod.snd ∘ fun u : String => (u, embed u)) = embed := rfl
    have h2 : (Prod.fst ∘ fun u : String => (u, embed u)) = id := rfl
    rw [h1, h2, List.map_id]
    rfl
  rw [hs]
  have hposdist : ∀ u ∈ texts, u ≠ t → 0 < sqDist (embed t) (embed u) := by
    intro u hu hut
    rcases lt_or_eq_of_le (sqDist_nonneg (embed t) (embed u)) with h | h
    · exact h
    · exfalso
      have hl : (embed t).length = (embed u).length := (hlen u hu).symm
      have := (sqDist_eq_zero_iff (embed t) (embed u) hl).mp h.symm
      exact hinj u hu hut this.symm
  refine ⟨?_, hposdist⟩
  have h0 : ¬ (texts.length = 0) := by
    have := List.length_pos.mpr (List.ne_nil_of_mem ht)
    omega
  set L := (scored (texts.map embed) (embed t)).mergeSort entryLe with hL
  have hlenL : L.length = texts.length := by
    rw [hL, List.length_mergeSort]
    simp [scored]
  have hLne : L ≠ [] := by
    intro hE
    rw [hE] at hlenL
    simp only [List.length_nil] at hlenL
    omega
  obtain ⟨p0, rest, hcons⟩ := List.exists_cons_of_ne_nil hLne
  have hmem0 : p0 ∈ scored (texts.map embed) (embed t) := by
    have hin : p0 ∈ L := by
      rw [hcons]
      exact List.mem_cons_self _ _
    rw [hL, List.mem_mergeSort] at hin
    exact hin
  obtain ⟨v0, hv0, hd0⟩ := mem_scored.mp hmem0
  obtain ⟨j, hj, htj⟩ := List.mem_iff_getElem.mp ht
  have hjv : (texts.map embed)[j]? = some (embed t) := by
    rw [List.getElem?_eq_some_iff]
    refine ⟨by simpa using hj, ?_⟩
    rw [List.getElem_map]
    rw [htj]
  have hzero_mem : ((j, (0:ℚ))) ∈ scored (texts.map embed) (embed t) := by
    rw [mem_scored]
    exact ⟨embed t, hjv, (sqDist_self (embed t)).symm⟩
  have hp0le : p0.2 ≤ 0 := by
    have hmemL : (j, (0:ℚ)) ∈ L := by
      rw [hL, List.mem_mergeSort]
      exact hzero_mem
    rw [hcons] at hmemL
    rcases List.mem_cons.mp hmemL with h | h
    · exact le_of_eq (congrArg Prod.snd h.symm)
    · have hpw : L.Pairwise (fun a b => entryLe a b = true) := by
        rw [hL]
        exact List.sorted_mergeSort entryLe_trans entryLe_total _
      rw [hcons] at hpw
      have hrel := (List.pairwise_cons.mp hpw).1 _ h
      exact entryLe_snd_le hrel
  have hp0ge : 0 ≤ p0.2 := by
    rw [hd0]
    exact sqDist_nonneg _ _
  have hp0z : p0.2 = 0 := le_antisymm hp0le hp0ge
  obtain ⟨hi0, hv0e⟩ := List.getElem?_eq_some_iff.mp hv0
  have hi0t : p0.1 < texts.length := by
    simpa using hi0
  have hv0u : v0 = embed (texts[p0.1]) := by
    rw [← hv0e, List.getElem_map]
  have hut : texts[p0.1] = t := by
    by_contra hud
    have hmemu : texts[p0.1] ∈ texts := List.getElem_mem hi0t
    have hdiff := hinj (texts[p0.1]) hmemu hud
    have hzero : sqDist (embed t) v0 = 0 := by
      rw [← hd0]
      exact hp0z
    have hl : (embed t).length = v0.length := by
      rw [hv0u]
      exact (hlen (texts[p0.1]) hmemu).symm
    have := (sqDist_eq_zero_iff (embed t) v0 hl).mp hzero
    rw [hv0u] at this
    exact hdiff this.symm
  have hsearch : faissSearch (texts.map embed) (embed t) 1 = [p0] := by
    unfold faissSearch
    rw [← hL, hcons]
    rfl
  have hdocG : texts.get? p0.1 = some t := by
    rw [List.get?_eq_getElem?, List.getElem?_eq_some_iff]
    exact ⟨hi0t, hut⟩
  unfold runQueryB
  rw [if_neg h0, hsearch]
  obtain ⟨i0, d0⟩ := p0
  dsimp only
  rw [hdocG]

/-- Witness for C7 (amended): with embeddings `[1]` for "b" and `[0]`
otherwise, inserting "a" then "b" and querying "b" yields "b" as top-1
with positive distance to "a". -/
theorem C7_roundtrip_amended_witness :
    (("b" : String) ∈ ["a", "b"]) ∧
    runQueryB (fun u => if u = "b" then [1] else [0])
      (insertAll emptyState (["a", "b"].map
        (fun u => (u, if u = "b" then ([1] : Vec) else [0])))) "b"
      = (insertAll emptyState (["a", "b"].map
          (fun u => (u, if u = "b" then ([1] : Vec) else [0]))),
         Except.ok ("b", ("b" : String).take 500)) ∧
    (∀ u ∈ ["a", "b"], u ≠ "b" →
      0 < sqDist (if ("b":String) = "b" then ([1] : Vec) else [0])
        (if u = "b" then ([1] : Vec) else [0])) :=
  ⟨by decide,
    C7_roundtrip_amended (fun u => if u = "b" then [1] else [0]) ["a", "b"] "b"
      (by decide) (by decide) (by decide)⟩

end VeeraTech
